import Mathlib

/-!
Verification of the syllable counter repository (in03/syllable).

This file is a shallow embedding of the inference-side code of
src/onnx_export/python_example.py (class SyllableCounter with methods
encode_word, count_syllables and count_text), together with the composite
resolution policy of the specification.  The neural network itself (the ONNX
session) is an opaque real-valued function of the encoded tensor; it is
modelled as a parameter `net : List (List ℚ) → ℚ` producing the raw scalar
estimate, so theorems quantified over `net` hold for every weight set.
-/

namespace Syllable

/-- The whitespace characters recognised by Python's str.strip and str.split
(ASCII range; these are the whitespace characters the repository's inputs
use). -/
def isPySpace (c : Char) : Bool :=
  c = ' ' || c = '\t' || c = '\n' || c = '\r' || c = '\x0b' || c = '\x0c'

/-- Embeds the guard `not word or not word.strip()` of
SyllableCounter.count_syllables: true exactly when the word is empty or
consists only of whitespace characters. -/
def isBlank (word : String) : Bool :=
  word.data.all isPySpace

/-- Embeds `self.char_to_idx = {c: i for i, c in enumerate(self.chars)}` of
SyllableCounter.__init__, as the lookup function the dict realises: the index
of character `c` in the alphabet (on duplicate characters the Python dict
comprehension keeps the last index, which this recursion reproduces; the
alphabet is duplicate-free in practice). -/
def char_to_idx : List Char → Char → Option Nat
  | [], _ => none
  | a :: rest, c =>
    match char_to_idx rest c with
    | some i => some (i + 1)
    | none => if a = c then some 0 else none

/-- One row of the one-hot tensor built by SyllableCounter.encode_word: the
loop body `if char in self.char_to_idx: encoded[0, i, self.char_to_idx[char]]
= 1.0` writes a single 1.0 into the all-zero row at the character's alphabet
index, and leaves the row all-zero when the character is outside the
alphabet. -/
def oneHotRow (chars : List Char) (c : Char) : List ℚ :=
  match char_to_idx chars c with
  | some j => (List.range chars.length).map fun k => if k = j then (1 : ℚ) else 0
  | none => List.replicate chars.length (0 : ℚ)

/-- Embeds SyllableCounter.encode_word: `word = word.lower()[:self.max_len]`,
then a zero tensor of shape [max_len, len(chars)] whose row `i` is written by
the loop `for i, char in enumerate(word)`.  The leading batch dimension of
size 1 is dropped. -/
def encode_word (chars : List Char) (max_len : Nat) (word : String) :
    List (List ℚ) :=
  (List.range max_len).map fun i =>
    match ((word.data.map Char.toLower).take max_len)[i]? with
    | some c => oneHotRow chars c
    | none => List.replicate chars.length (0 : ℚ)

/-- Python 3's built-in `round` on the raw scalar: round half to even
(banker's rounding). -/
def roundHalfEven (x : ℚ) : ℤ :=
  if x - ⌊x⌋ < 1 / 2 then ⌊x⌋
  else if 1 / 2 < x - ⌊x⌋ then ⌊x⌋ + 1
  else if ⌊x⌋ % 2 = 0 then ⌊x⌋ else ⌊x⌋ + 1

/-- Embeds SyllableCounter.count_syllables: return 0 for empty or
all-whitespace input, otherwise encode the word, run the network (`net`
stands for the ONNX session applied to the encoded tensor) and post-process
with `max(1, round(float(result[0][0][0])))`. -/
def count_syllables (chars : List Char) (max_len : Nat)
    (net : List (List ℚ) → ℚ) (word : String) : ℤ :=
  if isBlank word then 0
  else max 1 (roundHalfEven (net (encode_word chars max_len word)))

/-- Worker for `pySplit`: Python's `str.split()` with no separator argument,
scanning the characters left to right while accumulating the current token
(in reverse) in `acc`; whitespace runs close the current token and empty
tokens are never produced. -/
def pySplitAux : List Char → List Char → List (List Char)
  | [], acc => if acc.isEmpty then [] else [acc.reverse]
  | c :: rest, acc =>
    if isPySpace c then
      if acc.isEmpty then pySplitAux rest []
      else acc.reverse :: pySplitAux rest []
    else pySplitAux rest (c :: acc)

/-- Embeds `text.split()` as used by SyllableCounter.count_text: split on
runs of whitespace, discarding empty tokens. -/
def pySplit (text : String) : List String :=
  (pySplitAux text.data []).map fun l => String.mk l

/-- Embeds SyllableCounter.count_text:
`return [self.count_syllables(word) for word in text.split()]`. -/
def count_text (chars : List Char) (max_len : Nat)
    (net : List (List ℚ) → ℚ) (text : String) : List ℤ :=
  (pySplit text).map (count_syllables chars max_len net)

/-- Python slicing `w[:n]` on a string. -/
def pyTake (n : Nat) (word : String) : String :=
  String.mk (word.data.take n)

/-- Python `w.lower()` on a string (character-wise lowercasing). -/
def pyLower (word : String) : String :=
  String.mk (word.data.map Char.toLower)

/-- A syllable estimate together with its provenance, as in the
specification's data model (FromDictionary, FromModel, Unknown). -/
inductive SyllableEstimate where
  | fromDictionary (n : ℤ) : SyllableEstimate
  | fromModel (n : ℤ) : SyllableEstimate
  | unknown : SyllableEstimate
deriving DecidableEq

/-- Modelled from the spec: DictionarySyllableCounter.count (the syllable
package containing CmudictSyllableCounter is not among the visible source
files; only callers such as src/interactive_test.py are).  Per the spec it
normalises the word to lowercase, looks it up in the precomputed table, and
returns FromDictionary on a hit and Unknown on a miss. -/
def dict_count_word (table : String → Option ℤ) (word : String) :
    SyllableEstimate :=
  match table (pyLower word) with
  | some n => SyllableEstimate.fromDictionary n
  | none => SyllableEstimate.unknown

/-- Modelled from the spec: ModelSyllableCounter.count as a counter in the
composite chain (the syllable package is not among the visible source
files).  The model counter always returns a definite FromModel estimate,
computed exactly as the embedded count_syllables of
src/onnx_export/python_example.py. -/
def model_count_word (chars : List Char) (max_len : Nat)
    (net : List (List ℚ) → ℚ) (word : String) : SyllableEstimate :=
  SyllableEstimate.fromModel (count_syllables chars max_len net word)

/-- Modelled from the spec: CompositeSyllableCounter.count_word (the
syllable package is not among the visible source files; the construction
CompositeSyllableCounter([csc, msc]) in src/interactive_test.py fixes the
order: dictionary first, model last).  Queries the counters in order and
returns the first definite result; Unknown if all return Unknown. -/
def composite_count_word :
    List (String → SyllableEstimate) → String → SyllableEstimate
  | [], _ => SyllableEstimate.unknown
  | counter :: rest, word =>
    match counter word with
    | SyllableEstimate.unknown => composite_count_word rest word
    | r => r

/-- The 28-character alphabet documented for the exported model (apostrophe,
hyphen, a to z), used to instantiate witnesses. -/
def default_chars : List Char :=
  Char.ofNat 39 :: '-' :: ['a', 'b', 'c', 'd', 'e', 'f', 'g', 'h', 'i', 'j',
    'k', 'l', 'm', 'n', 'o', 'p', 'q', 'r', 's', 't', 'u', 'v', 'w', 'x',
    'y', 'z']

lemma char_to_idx_lt (c : Char) :
    ∀ (chars : List Char) (j : ℕ), char_to_idx chars c = some j →
      j < chars.length := by
  intro chars
  induction chars with
  | nil => intro j h; simp [char_to_idx] at h
  | cons a rest ih =>
    intro j h
    unfold char_to_idx at h
    split at h
    · rename_i i hrec
      cases h
      exact Nat.succ_lt_succ (ih i hrec)
    · split at h
      · cases h; simp
      · cases h

lemma char_to_idx_isSome (c : Char) :
    ∀ chars : List Char, (char_to_idx chars c).isSome = true ↔ c ∈ chars := by
  intro chars
  induction chars with
  | nil => simp [char_to_idx]
  | cons a rest ih =>
    unfold char_to_idx
    cases hrec : char_to_idx rest c with
    | some i =>
      simp only [Option.isSome_some, true_iff]
      have : c ∈ rest := ih.mp (by simp [hrec])
      exact List.mem_cons_of_mem a this
    | none =>
      by_cases hac : a = c
      · simp [hac]
      · have : c ∉ rest := fun hm => by
          have := ih.mpr hm
          simp [hrec] at this
        simp [hac, this, Ne.symm hac]

lemma char_to_idx_getElem (c : Char) :
    ∀ (chars : List Char) (j : ℕ), char_to_idx chars c = some j →
      chars[j]? = some c := by
  intro chars
  induction chars with
  | nil => intro j h; simp [char_to_idx] at h
  | cons a rest ih =>
    intro j h
    unfold char_to_idx at h
    split at h
    · rename_i i hrec
      cases h
      simpa using ih i hrec
    · split at h
      · rename_i hac
        cases h
        simp [hac]
      · cases h

lemma sum_indicator (j : ℕ) :
    ∀ n : ℕ, ((List.range n).map fun k => if k = j then (1 : ℚ) else 0).sum
      = if j < n then 1 else 0 := by
  intro n
  induction n with
  | zero => simp
  | succ n ih =>
    rw [List.range_succ, List.map_append, List.sum_append, ih]
    simp only [List.map_cons, List.map_nil, List.sum_cons, List.sum_nil,
      add_zero]
    by_cases h1 : j < n
    · rw [if_pos h1, if_pos (show j < n + 1 by omega),
        if_neg (show ¬n = j by omega), add_zero]
    · by_cases h2 : n = j
      · subst h2
        rw [if_neg h1, if_pos (show n < n + 1 by omega), if_pos rfl,
          zero_add]
      · rw [if_neg h1, if_neg (show ¬j < n + 1 by omega), if_neg h2,
          add_zero]

lemma oneHotRow_length (chars : List Char) (c : Char) :
    (oneHotRow chars c).length = chars.length := by
  unfold oneHotRow
  split <;> simp

lemma oneHotRow_mem (chars : List Char) (c : Char) :
    ∀ x ∈ oneHotRow chars c, x = 0 ∨ x = 1 := by
  intro x hx
  unfold oneHotRow at hx
  split at hx
  · rename_i i hrec
    rw [List.mem_map] at hx
    obtain ⟨k, -, rfl⟩ := hx
    by_cases hk : k = i
    · rw [if_pos hk]; exact Or.inr rfl
    · rw [if_neg hk]; exact Or.inl rfl
  · exact Or.inl (List.eq_of_mem_replicate hx)

lemma oneHotRow_sum_le (chars : List Char) (c : Char) :
    (oneHotRow chars c).sum ≤ 1 := by
  unfold oneHotRow
  split
  · rw [sum_indicator]
    split <;> norm_num
  · simp

lemma roundHalfEven_of_lt {x : ℚ} (h : x - ⌊x⌋ < 1 / 2) :
    roundHalfEven x = ⌊x⌋ := by
  unfold roundHalfEven
  rw [if_pos h]

lemma roundHalfEven_of_gt {x : ℚ} (h : 1 / 2 < x - ⌊x⌋) :
    roundHalfEven x = ⌊x⌋ + 1 := by
  unfold roundHalfEven
  rw [if_neg (by linarith), if_pos h]

lemma roundHalfEven_half_even {x : ℚ} (h1 : x - ⌊x⌋ = 1 / 2)
    (h2 : ⌊x⌋ % 2 = 0) : roundHalfEven x = ⌊x⌋ := by
  unfold roundHalfEven
  rw [if_neg (by linarith), if_neg (by linarith), if_pos h2]

lemma roundHalfEven_half_odd {x : ℚ} (h1 : x - ⌊x⌋ = 1 / 2)
    (h2 : ⌊x⌋ % 2 ≠ 0) : roundHalfEven x = ⌊x⌋ + 1 := by
  unfold roundHalfEven
  rw [if_neg (by linarith), if_neg (by linarith), if_neg h2]

lemma count_syllables_of_blank {word : String} (h : isBlank word = true)
    (chars : List Char) (max_len : ℕ) (net : List (List ℚ) → ℚ) :
    count_syllables chars max_len net word = 0 := by
  unfold count_syllables
  rw [h]
  rfl

lemma count_syllables_of_not_blank {word : String} (h : isBlank word = false)
    (chars : List Char) (max_len : ℕ) (net : List (List ℚ) → ℚ) :
    count_syllables chars max_len net word
      = max 1 (roundHalfEven (net (encode_word chars max_len word))) := by
  unfold count_syllables
  rw [h]
  rfl

lemma pySplitAux_flatten :
    ∀ (l acc : List Char), (pySplitAux l acc).flatten
      = acc.reverse ++ l.filter fun c => !isPySpace c := by
  intro l
  induction l with
  | nil =>
    intro acc
    unfold pySplitAux
    by_cases h : acc.isEmpty
    · rw [if_pos h]
      simp [List.isEmpty_iff.mp h]
    · rw [if_neg h]
      simp
  | cons c rest ih =>
    intro acc
    unfold pySplitAux
    by_cases hc : isPySpace c
    · rw [if_pos hc]
      by_cases h : acc.isEmpty
      · rw [if_pos h, ih]
        simp [List.isEmpty_iff.mp h, List.filter_cons, hc]
      · rw [if_neg h]
        simp [List.flatten_cons, ih, List.filter_cons, hc]
    · rw [if_neg hc, ih]
      simp [List.filter_cons, hc]

lemma pySplitAux_ne_nil :
    ∀ (l acc : List Char), ∀ w ∈ pySplitAux l acc, w ≠ [] := by
  intro l
  induction l with
  | nil =>
    intro acc w hw
    unfold pySplitAux at hw
    by_cases h : acc.isEmpty
    · rw [if_pos h] at hw
      simp at hw
    · rw [if_neg h] at hw
      rw [List.mem_singleton] at hw
      subst hw
      simpa [List.isEmpty_iff] using h
  | cons c rest ih =>
    intro acc w hw
    unfold pySplitAux at hw
    by_cases hc : isPySpace c
    · rw [if_pos hc] at hw
      by_cases h : acc.isEmpty
      · rw [if_pos h] at hw
        exact ih [] w hw
      · rw [if_neg h] at hw
        rcases List.mem_cons.mp hw with hw | hw
        · subst hw
          simpa [List.isEmpty_iff] using h
        · exact ih [] w hw
    · rw [if_neg hc] at hw
      exact ih (c :: acc) w hw

lemma pySplitAux_all_space :
    ∀ l : List Char, l.all isPySpace = true → pySplitAux l [] = [] := by
  intro l
  induction l with
  | nil => intro _; rfl
  | cons c rest ih =>
    intro h
    rw [List.all_cons, Bool.and_eq_true] at h
    unfold pySplitAux
    rw [if_pos h.1]
    simp [ih h.2]

/-- C2 counterexample: the single-space word has length greater than 0, yet
count_syllables returns 0 for it (the guard treats all-whitespace words like
the empty word), so the lower bound as claimed fails, and 0 is returned for
an input that is not empty. -/
theorem C2_lower_bound_cex :
    0 < " ".length
      ∧ count_syllables default_chars 18 (fun _ => (0 : ℚ)) " " = 0
      ∧ " " ≠ "" := by
  refine ⟨by decide, ?_, by decide⟩
  exact count_syllables_of_blank (by decide) _ _ _

/-- C2 amended: count_syllables always returns an integer that is at least
0; it returns 0 exactly for empty or all-whitespace input, and at least 1
for every word containing a non-whitespace character (forced by the
max(1, round(y)) postprocess on the model path). -/
theorem C2_lower_bound_amended (chars : List Char) (max_len : ℕ)
    (net : List (List ℚ) → ℚ) (word : String) :
    0 ≤ count_syllables chars max_len net word
      ∧ (count_syllables chars max_len net word = 0 ↔ isBlank word = true)
      ∧ (isBlank word = false →
          1 ≤ count_syllables chars max_len net word) := by
  by_cases h : isBlank word
  · rw [count_syllables_of_blank h]
    simp [h]
  · rw [count_syllables_of_not_blank (Bool.not_eq_true _ ▸ h)]
    have h1 : (1 : ℤ) ≤ max 1 (roundHalfEven (net (encode_word chars max_len
        word))) := le_max_left _ _
    refine ⟨by linarith, ?_, fun _ => h1⟩
    constructor
    · intro h0; omega
    · intro hb; exact absurd hb h

/-- Witness for C2 amended at a concrete non-blank word. -/
theorem C2_lower_bound_amended_w :
    1 ≤ count_syllables default_chars 18 (fun _ => (2 : ℚ)) "hi" :=
  (C2_lower_bound_amended default_chars 18 (fun _ => (2 : ℚ)) "hi").2.2
    (by decide)

/-- C3: for every alphabet, maximum length, network and word, if the word is
empty or all-whitespace then count_syllables returns 0; the result is the
same for every network (no inference is consulted), and in particular the
empty word and a word of three spaces give 0. -/
theorem C3_empty_short_circuit (chars : List Char) (max_len : ℕ)
    (net : List (List ℚ) → ℚ) :
    (∀ word : String, isBlank word = true →
        count_syllables chars max_len net word = 0)
      ∧ count_syllables chars max_len net "" = 0
      ∧ count_syllables chars max_len net "   " = 0 := by
  refine ⟨fun word h => count_syllables_of_blank h _ _ _, ?_, ?_⟩
  · exact count_syllables_of_blank (by decide) _ _ _
  · exact count_syllables_of_blank (by decide) _ _ _

/-- Witness for C3 at a concrete all-whitespace word and a network that
would predict 99. -/
theorem C3_empty_short_circuit_w :
    count_syllables default_chars 18 (fun _ => (99 : ℚ)) " \t " = 0 :=
  (C3_empty_short_circuit default_chars 18 (fun _ => (99 : ℚ))).1 " \t "
    (by decide)

/-- C9: determinism — count_syllables is a pure function of the alphabet,
the maximum length, the weight set (the network function) and the word, so
two calls with the same weight set and the same word return identical
results. -/
theorem C9_determinism (chars : List Char) (max_len : ℕ)
    (net1 net2 : List (List ℚ) → ℚ) (w1 w2 : String)
    (hnet : net1 = net2) (hw : w1 = w2) :
    count_syllables chars max_len net1 w1
      = count_syllables chars max_len net2 w2 := by
  subst hnet; subst hw; rfl

/-- Witness for C9: two identical calls at a concrete word agree. -/
theorem C9_determinism_w :
    count_syllables default_chars 18 (fun _ => (1 : ℚ)) "abc"
      = count_syllables default_chars 18 (fun _ => (1 : ℚ)) "abc" :=
  C9_determinism default_chars 18 (fun _ => (1 : ℚ)) (fun _ => (1 : ℚ))
    "abc" "abc" rfl rfl

/-- C4: on the model path (guard not taken), the returned count equals
max(1, round(y)) with round-half-to-even applied to the raw scalar y; a raw
value exactly halfway between two integers rounds to the even neighbour, as
shown at 5/2 (down to 2) and 7/2 (up to 4), also end to end through
count_syllables with a network that outputs exactly 5/2. -/
theorem C4_rounding_half_even (chars : List Char) (max_len : ℕ)
    (net : List (List ℚ) → ℚ) (word : String)
    (h : isBlank word = false) :
    count_syllables chars max_len net word
        = max 1 (roundHalfEven (net (encode_word chars max_len word)))
      ∧ roundHalfEven (5 / 2) = 2
      ∧ roundHalfEven (7 / 2) = 4
      ∧ count_syllables default_chars 18 (fun _ => (5 : ℚ) / 2) "hello"
          = 2 := by
  have h52 : roundHalfEven (5 / 2) = 2 := by
    have hf : ⌊(5 : ℚ) / 2⌋ = 2 := by norm_num
    rw [roundHalfEven_half_even (by rw [hf]; norm_num) (by rw [hf]; decide),
      hf]
  have h72 : roundHalfEven (7 / 2) = 4 := by
    have hf : ⌊(7 : ℚ) / 2⌋ = 3 := by norm_num
    rw [roundHalfEven_half_odd (by rw [hf]; norm_num) (by rw [hf]; decide),
      hf]
    norm_num
  refine ⟨count_syllables_of_not_blank h chars max_len net, h52, h72, ?_⟩
  rw [count_syllables_of_not_blank (by decide) default_chars 18
    (fun _ => (5 : ℚ) / 2)]
  show max 1 (roundHalfEven (5 / 2)) = 2
  rw [h52]
  decide

/-- Witness for C4 at a concrete non-blank word and a network outputting
exactly 2. -/
theorem C4_rounding_half_even_w :
    count_syllables default_chars 18 (fun _ => (2 : ℚ)) "abc"
      = max 1 (roundHalfEven 2) :=
  (C4_rounding_half_even default_chars 18 (fun _ => (2 : ℚ)) "abc"
    (by decide)).1

/-- C5 counterexample: for the 19-character word made of 18 spaces followed
by the letter a, the full word takes the model path (it contains a
non-whitespace character) and returns at least 1, while its first 18
characters are all spaces, so the truncated word hits the empty-input guard
and returns 0; the claimed equality fails. -/
theorem C5_truncation_cex :
    18 < (String.mk (List.replicate 18 ' ' ++ ['a'])).length
      ∧ count_syllables default_chars 18 (fun _ => (0 : ℚ))
          (String.mk (List.replicate 18 ' ' ++ ['a'])) = 1
      ∧ count_syllables default_chars 18 (fun _ => (0 : ℚ))
          (pyTake 18 (String.mk (List.replicate 18 ' ' ++ ['a']))) = 0 := by
  have h0 : roundHalfEven (0 : ℚ) = 0 := by
    rw [roundHalfEven_of_lt (by norm_num)]
    norm_num
  refine ⟨by decide, ?_, ?_⟩
  · rw [count_syllables_of_not_blank (by decide)]
    show max 1 (roundHalfEven 0) = 1
    rw [h0]
    decide
  · exact count_syllables_of_blank (by decide) _ _ _

/-- C5 amended: for every word longer than max_len whose first max_len
characters are not all whitespace, the model-path count of the word equals
the count of its first max_len characters, because encode_word lowercases
and silently truncates to max_len characters (the amendment excludes words
whose truncation is all-whitespace, where the full word runs the model but
the truncated word hits the empty-input guard). -/
theorem C5_truncation_amended (chars : List Char) (max_len : ℕ)
    (net : List (List ℚ) → ℚ) (word : String)
    (hlen : max_len < word.length)
    (hb : isBlank (pyTake max_len word) = false) :
    count_syllables chars max_len net word
      = count_syllables chars max_len net (pyTake max_len word) := by
  have hb2 : isBlank word = false := by
    rw [Bool.eq_false_iff] at hb ⊢
    intro hall
    apply hb
    unfold isBlank at hall ⊢
    unfold pyTake
    rw [List.all_eq_true] at hall ⊢
    intro c hc
    exact hall c (List.take_subset _ _ hc)
  have henc : encode_word chars max_len (pyTake max_len word)
      = encode_word chars max_len word := by
    unfold encode_word pyTake
    have hl : (((String.mk (word.data.take max_len)).data.map
        Char.toLower).take max_len)
        = (word.data.map Char.toLower).take max_len := by
      show ((word.data.take max_len).map Char.toLower).take max_len = _
      rw [List.map_take, List.take_take, min_self]
    rw [hl]
  rw [count_syllables_of_not_blank hb2, count_syllables_of_not_blank hb,
    henc]

/-- Witness for C5 amended at a 20-character word. -/
theorem C5_truncation_amended_w :
    count_syllables default_chars 18 (fun _ => (1 : ℚ))
        "abcdefghijklmnopqrst"
      = count_syllables default_chars 18 (fun _ => (1 : ℚ))
          (pyTake 18 "abcdefghijklmnopqrst") :=
  C5_truncation_amended default_chars 18 (fun _ => (1 : ℚ))
    "abcdefghijklmnopqrst" (by decide) (by decide)

/-- C6: the encoded tensor has max_len rows of width equal to the alphabet
size, every entry is 0 or 1, each row sums to at most 1, and every row at an
index at least min(word length, max_len) sums to exactly 0 (zero
padding). -/
theorem C6_encoding_invariant (chars : List Char) (max_len : ℕ)
    (word : String) :
    (encode_word chars max_len word).length = max_len
      ∧ (∀ row ∈ encode_word chars max_len word,
          row.length = chars.length ∧ (∀ x ∈ row, x = 0 ∨ x = 1)
            ∧ row.sum ≤ 1)
      ∧ ∀ i : ℕ, min word.length max_len ≤ i →
          ((encode_word chars max_len word).getD i []).sum = 0 := by
  refine ⟨by simp [encode_word], ?_, ?_⟩
  · intro row hrow
    unfold encode_word at hrow
    rw [List.mem_map] at hrow
    obtain ⟨i, -, rfl⟩ := hrow
    split
    · rename_i c hc
      exact ⟨oneHotRow_length chars c, oneHotRow_mem chars c,
        oneHotRow_sum_le chars c⟩
    · exact ⟨by simp, fun x hx => Or.inl (List.eq_of_mem_replicate hx),
        by simp⟩
  · intro i hi
    by_cases hlt : i < max_len
    · have hword : word.length = word.data.length := rfl
      have hnone : ((word.data.map Char.toLower).take max_len)[i]? =
          none := by
        apply List.getElem?_eq_none
        rw [List.length_take, List.length_map]
        rw [hword] at hi
        omega
      unfold encode_word
      rw [List.getD_eq_getElem?_getD, List.getElem?_map,
        List.getElem?_range hlt]
      simp only [Option.map_some', Option.getD_some]
      rw [hnone]
      simp
    · unfold encode_word
      rw [List.getD_eq_getElem?_getD]
      rw [List.getElem?_eq_none (by
        rw [List.length_map, List.length_range]
        omega)]
      simp

/-- Witness for C6: a padding row of the encoding of a concrete short word
sums to 0. -/
theorem C6_encoding_invariant_w :
    ((encode_word default_chars 18 "hello").getD 10 []).sum = 0 :=
  (C6_encoding_invariant default_chars 18 "hello").2.2 10 (by decide)

/-- C7: for a position inside the (truncated) word carrying lowercased
character c, the alphabet lookup succeeds exactly when c is in the alphabet;
on success the returned index j is c's position in the alphabet and row i of
the encoding is the one-hot vector with a single 1 at j; when c is absent
the row stays all-zero, and no error is possible (encoding is total). -/
theorem C7_unknown_character (chars : List Char) (max_len : ℕ)
    (word : String) (i : ℕ) (c : Char)
    (hc : (word.data.map Char.toLower)[i]? = some c) (hi : i < max_len) :
    ((char_to_idx chars c).isSome = true ↔ c ∈ chars)
      ∧ (∀ j, char_to_idx chars c = some j → chars[j]? = some c)
      ∧ (∀ j, char_to_idx chars c = some j →
          (encode_word chars max_len word).getD i []
            = (List.range chars.length).map
                fun k => if k = j then (1 : ℚ) else 0)
      ∧ (c ∉ chars → (encode_word chars max_len word).getD i []
          = List.replicate chars.length 0) := by
  have hrow : (encode_word chars max_len word).getD i []
      = oneHotRow chars c := by
    unfold encode_word
    rw [List.getD_eq_getElem?_getD, List.getElem?_map,
      List.getElem?_range hi]
    simp only [Option.map_some', Option.getD_some]
    rw [List.getElem?_take, if_pos hi, hc]
  refine ⟨char_to_idx_isSome c chars, fun j hj =>
    char_to_idx_getElem c chars j hj, ?_, ?_⟩
  · intro j hj
    rw [hrow]
    unfold oneHotRow
    rw [hj]
  · intro hnot
    have hnone : char_to_idx chars c = none := by
      cases hcase : char_to_idx chars c with
      | none => rfl
      | some j =>
        exact absurd ((char_to_idx_isSome c chars).mp (by simp [hcase]))
          hnot
    rw [hrow]
    unfold oneHotRow
    rw [hnone]

/-- Witness for C7: in the encoding of the word Ab, row 0 carries the
lowercased character a, which sits at index 2 of the 28-character alphabet,
and the row is the one-hot vector at index 2. -/
theorem C7_unknown_character_w :
    (encode_word default_chars 18 "Ab").getD 0 []
      = (List.range default_chars.length).map
          fun k => if k = 2 then (1 : ℚ) else 0 :=
  (C7_unknown_character default_chars 18 "Ab" 0 'a' (by decide)
    (by decide)).2.2.1 2 (by decide)

/-- C8: count_text maps count_syllables over the whitespace-split tokens of
the text, in input order; every token is nonempty, and the concatenation of
the tokens in output order is exactly the input text with its whitespace
characters removed (so the per-token results are one per token, in the
original left-to-right order). -/
theorem C8_tokenization (chars : List Char) (max_len : ℕ)
    (net : List (List ℚ) → ℚ) (text : String) :
    count_text chars max_len net text
        = (pySplit text).map (count_syllables chars max_len net)
      ∧ (∀ w ∈ pySplit text, w ≠ "")
      ∧ ((pySplit text).map String.data).flatten
          = text.data.filter fun c => !isPySpace c := by
  refine ⟨rfl, ?_, ?_⟩
  · intro w hw
    unfold pySplit at hw
    rw [List.mem_map] at hw
    obtain ⟨l, hl, rfl⟩ := hw
    intro hcon
    exact pySplitAux_ne_nil text.data [] l hl (congrArg String.data hcon)
  · unfold pySplit
    rw [List.map_map]
    have hcomp : String.data ∘ (fun l => String.mk l) = id := rfl
    rw [hcomp, List.map_id]
    simpa using pySplitAux_flatten text.data []

/-- Witness for C8: the tokens of a concrete two-word text concatenate to
the text without its spaces. -/
theorem C8_tokenization_w :
    ((pySplit "ab  cd").map String.data).flatten
      = "ab  cd".data.filter fun c => !isPySpace c :=
  (C8_tokenization default_chars 18 (fun _ => (0 : ℚ)) "ab  cd").2.2

/-- C10: a text that is empty or all-whitespace splits into no tokens, so
count_text returns the empty list (and no error). -/
theorem C10_blank_text (chars : List Char) (max_len : ℕ)
    (net : List (List ℚ) → ℚ) (text : String)
    (h : text.data.all isPySpace = true) :
    count_text chars max_len net text = [] := by
  unfold count_text pySplit
  rw [pySplitAux_all_space text.data h]
  rfl

/-- Witness for C10 at a three-space text. -/
theorem C10_blank_text_w :
    count_text default_chars 18 (fun _ => (0 : ℚ)) "   " = [] :=
  C10_blank_text default_chars 18 (fun _ => (0 : ℚ)) "   " (by decide)

/-- C1: composite precedence — with the counters in their fixed order
(dictionary first, model last), whenever the dictionary table has an entry
for the (lowercased) word, composite count_word returns exactly that entry
with dictionary provenance, for every network, i.e. regardless of what the
model would predict. -/
theorem C1_composite_precedence (table : String → Option ℤ)
    (chars : List Char) (max_len : ℕ) (net : List (List ℚ) → ℚ)
    (word : String) (n : ℤ) (h : table (pyLower word) = some n) :
    composite_count_word
        [dict_count_word table, model_count_word chars max_len net] word
      = SyllableEstimate.fromDictionary n := by
  unfold composite_count_word dict_count_word
  rw [h]

/-- Witness for C1: a table carrying hello with 2 syllables wins over a
network that would predict 9, on the capitalised query Hello. -/
theorem C1_composite_precedence_w :
    composite_count_word
        [dict_count_word
            (fun s => if s = "hello" then some (2 : ℤ) else none),
          model_count_word default_chars 18 (fun _ => (9 : ℚ))] "Hello"
      = SyllableEstimate.fromDictionary 2 :=
  C1_composite_precedence
    (fun s => if s = "hello" then some (2 : ℤ) else none)
    default_chars 18 (fun _ => (9 : ℚ)) "Hello" 2 (by decide)

end Syllable
